import Mathlib

/-!
Shallow embedding of src/media_manager/utils.py.

Python strings are modelled as List Char (ASCII oriented, matching the
scope of the parsing core).  The regular expressions of the source are
embedded as explicit backtracking matchers that follow the search order of
the re module: starting positions are tried left to right, greedy
quantifiers try the longer alternative first and backtrack on failure.
-/

-- ===== character classes =====

/-- Decimal digit test used for the regex digit class, ASCII range. -/
def isDigit (c : Char) : Bool := 48 ≤ c.toNat && c.toNat ≤ 57

/-- Numeric value of a digit character. -/
def dval (c : Char) : Nat := c.toNat - 48

/-- Python whitespace class, restricted to the ASCII range: space, tab,
newline, carriage return, vertical tab and form feed, by code point. -/
def isSpace (c : Char) : Bool :=
  c.toNat = 32 || c.toNat = 9 || c.toNat = 10 || c.toNat = 13 || c.toNat = 11 || c.toNat = 12

/-- Delimiter class of the split in clean_parts: dot, dash, underscore, whitespace. -/
def isDelim (c : Char) : Bool := c = '.' || c = '-' || c = '_' || isSpace c

/-- Characters removed at both ends of a raw part. -/
def isBracketChar (c : Char) : Bool := c = '(' || c = ')' || c = '[' || c = ']'

/-- ASCII lowering of one character, the effect of str.lower on ASCII text. -/
def pyLowerChar (c : Char) : Char :=
  if 65 ≤ c.toNat && c.toNat ≤ 90 then Char.ofNat (c.toNat + 32) else c

/-- ASCII raising of one character, the effect of str.upper on ASCII text. -/
def pyUpperChar (c : Char) : Char :=
  if 97 ≤ c.toNat && c.toNat ≤ 122 then Char.ofNat (c.toNat - 32) else c

/-- Lowercasing of a whole string. -/
def pyLower (s : List Char) : List Char := s.map pyLowerChar

-- ===== extension stripping =====
-- name = re.sub of the pattern "backslash-dot, one or more non-dots, the
-- group repeated, anchored at the end" with the empty string (utils.py line 30).

/-- State machine for the extension pattern body.  The flag records that the
previous character was a dot, so at least one non-dot character is required
before the scan may end or another dot may start a new group. -/
def extOk : List Char → Bool → Bool
  | [], needChar => !needChar
  | c :: cs, needChar =>
    if needChar then (!(c = '.')) && extOk cs false
    else if c = '.' then extOk cs true else extOk cs false

/-- Whether a whole suffix matches the extension pattern body. -/
def extRunMatch : List Char → Bool
  | [] => false
  | c :: cs => (c = '.') && extOk cs true

/-- Leftmost-match removal of a trailing extension run: the suffix starting
at the first position from which the extension pattern matches through the
end of the string is dropped; when no such position exists the string is
returned unchanged. -/
def stripExt : List Char → List Char
  | [] => []
  | c :: cs => if extRunMatch (c :: cs) then [] else c :: stripExt cs

-- ===== year detection =====
-- re.search of the pattern "19 or 20 followed by two digits" (utils.py line 33).

/-- Match of the year regex anchored at the head, returning group 0. -/
def yearAt : List Char → Option (List Char)
  | a :: b :: c :: d :: _ =>
    if ((a = '1' && b = '9') || (a = '2' && b = '0')) && (isDigit c && isDigit d) then
      some [a, b, c, d]
    else none
  | _ => none

/-- Leftmost search of the year regex over all starting positions. -/
def findYear : List Char → Option (List Char)
  | [] => none
  | c :: cs =>
    match yearAt (c :: cs) with
    | some g => some g
    | none => findYear cs

-- ===== season and episode detection =====
-- re.search, IGNORECASE, of the pattern: optional S, group 1 of one or two
-- digits, a character among x and E, group 2 of two digits, then an optional
-- non-capturing group of an optional dash, an optional E and group 3 of two
-- digits (utils.py lines 38 to 41).

/-- Separator class of the show regex under IGNORECASE. -/
def sepOk (c : Char) : Bool := c = 'x' || c = 'X' || c = 'e' || c = 'E'

/-- Two consecutive digits at the head, returning the captured characters
and the remainder. -/
def twoDigits : List Char → Option (List Char × List Char)
  | a :: b :: rest =>
    if isDigit a && isDigit b then some ([a, b], rest) else none
  | _ => none

/-- The part "optional E then group 3 of two digits" with the backtracking of
the optional E: the branch with E consumed is tried first, on failure the
branch without it. -/
def epart : List Char → Option (List Char)
  | [] => none
  | c :: rest =>
    if c = 'E' || c = 'e' then
      match twoDigits rest with
      | some (g, _) => some g
      | none =>
        match twoDigits (c :: rest) with
        | some (g, _) => some g
        | none => none
    else
      match twoDigits (c :: rest) with
      | some (g, _) => some g
      | none => none

/-- The optional trailing group: an optional dash, an optional E and two
digits.  Returns group 3 when the group participates in the match and none
when it is skipped. -/
def tailEp : List Char → Option (List Char)
  | [] => none
  | c :: rest =>
    if c = '-' then
      match epart rest with
      | some g => some g
      | none => epart (c :: rest)
    else epart (c :: rest)

/-- From the separator on: a separator character, group 2 of two digits and
the optional trailing group.  The season capture is passed through. -/
def sepEp (g1 : List Char) : List Char → Option (List Char × List Char × Option (List Char))
  | [] => none
  | c :: rest =>
    if sepOk c then
      match twoDigits rest with
      | some (g2, rest2) => some (g1, g2, tailEp rest2)
      | none => none
    else none

/-- The body after the optional S: a greedy one-or-two digit season capture,
the longer alternative first with backtracking to the shorter one. -/
def afterS : List Char → Option (List Char × List Char × Option (List Char))
  | [] => none
  | a :: rest =>
    if isDigit a then
      match rest with
      | b :: rest2 =>
        if isDigit b then
          match sepEp [a, b] rest2 with
          | some r => some r
          | none => sepEp [a] rest
        else sepEp [a] rest
      | [] => sepEp [a] []
    else none

/-- Anchored match of the whole show regex: the optional S is consumed
greedily and backtracked on failure. -/
def showAt : List Char → Option (List Char × List Char × Option (List Char))
  | [] => none
  | c :: cs =>
    if c = 'S' || c = 's' then
      match afterS cs with
      | some r => some r
      | none => afterS (c :: cs)
    else afterS (c :: cs)

/-- Leftmost search of the show regex over all starting positions. -/
def findShow : List Char → Option (List Char × List Char × Option (List Char))
  | [] => none
  | c :: cs =>
    match showAt (c :: cs) with
    | some r => some r
    | none => findShow cs

-- ===== numbers and their decimal strings =====

/-- Value of a digit string, the effect of int on a captured group. -/
def natFromDigits (s : List Char) : Nat := s.foldl (fun n c => 10 * n + dval c) 0

/-- Checked version of int: defined only on nonempty all-digit strings,
the domain on which the source applies it. -/
def parseNatQ (s : List Char) : Option Nat :=
  if !s.isEmpty && s.all isDigit then some (natFromDigits s) else none

/-- Decimal digits of a number, auxiliary recursion on fuel. -/
def natToStrGo : Nat → Nat → List Char → List Char
  | 0, _, acc => acc
  | fuel + 1, n, acc =>
    if n = 0 then acc else natToStrGo fuel (n / 10) (Char.ofNat (48 + n % 10) :: acc)

/-- Decimal string of a number, the effect of str on an int. -/
def natToStr (n : Nat) : List Char :=
  if n = 0 then ['0'] else natToStrGo (n + 1) n []

/-- Python range as a list: the integers from a up to but excluding b. -/
def pyRange (a b : Nat) : List Nat := List.range' a (b - a)

/-- Episode list built from the captures: an inclusive run when group 3 is a
nonempty string, the singleton first episode otherwise (utils.py lines 43
to 51). -/
def showInfoOf (caps : List Char × List Char × Option (List Char)) : Nat × List Nat :=
  let season := natFromDigits caps.1
  let episode := natFromDigits caps.2.1
  match caps.2.2 with
  | some g3 =>
    if g3.isEmpty then (season, [episode])
    else (season, pyRange episode (natFromDigits g3 + 1))
  | none => (season, [episode])

/-- Checked variant of showInfoOf with every int conversion fallible. -/
def showInfoOfChk (caps : List Char × List Char × Option (List Char)) : Option (Nat × List Nat) :=
  match parseNatQ caps.1 with
  | none => none
  | some season =>
    match parseNatQ caps.2.1 with
    | none => none
    | some episode =>
      match caps.2.2 with
      | some g3 =>
        if g3.isEmpty then some (season, [episode])
        else
          match parseNatQ g3 with
          | none => none
          | some l => some (season, pyRange episode (l + 1))
      | none => some (season, [episode])

-- ===== splitting and token cleanup =====

/-- re.split on the single-character delimiter class (utils.py line 53):
every delimiter occurrence separates two parts, so consecutive delimiters
yield empty parts. -/
def pySplit : List Char → List (List Char)
  | [] => [[]]
  | c :: cs =>
    if isDelim c then [] :: pySplit cs
    else
      match pySplit cs with
      | p :: ps => (c :: p) :: ps
      | [] => [[c]]

/-- Removal of leading and trailing bracket characters, the effect of
str.strip with the bracket set. -/
def stripBrackets (s : List Char) : List Char :=
  ((s.dropWhile isBracketChar).reverse.dropWhile isBracketChar).reverse

/-- The junk set of utils.py line 28, as a list of lowercase strings. -/
def junkList : List (List Char) :=
  ["720p".data, "1080p".data, "2160p".data, "x264".data, "x265".data,
   "h264".data, "bluray".data, "webrip".data, "hdrip".data]

/-- Token filter of the loop in utils.py lines 55 to 62: a token is skipped
when the detected year is truthy and the token equals its decimal string;
otherwise it is kept unless it is a junk tag. -/
def keepTok (year : Option Nat) (t : List Char) : Bool :=
  let yearDrop :=
    match year with
    | some y => (!(y = 0)) && (t = natToStr y)
    | none => false
  !yearDrop && !(junkList.contains t)

/-- Embedding of clean_parts: strip the extension run, optionally detect the
year and the show info on the stripped name, split it, normalize each part
and filter (utils.py lines 4 to 64). -/
def clean_parts (filename : List Char) (detect_year detect_show_info : Bool) :
    List (List Char) × Option Nat × Option (Nat × List Nat) :=
  let name := stripExt filename
  let year : Option Nat :=
    if detect_year then (findYear name).map natFromDigits else none
  let show_info : Option (Nat × List Nat) :=
    if detect_show_info then (findShow name).map showInfoOf else none
  let cleaned := ((pySplit name).map (fun p => pyLower (stripBrackets p))).filter (keepTok year)
  (cleaned, year, show_info)

/-- Checked variant of clean_parts where every int conversion of a captured
group is fallible. -/
def clean_parts_chk (filename : List Char) (detect_year detect_show_info : Bool) :
    Option (List (List Char) × Option Nat × Option (Nat × List Nat)) :=
  let name := stripExt filename
  let yearO : Option (Option Nat) :=
    if detect_year then
      match findYear name with
      | some g =>
        match parseNatQ g with
        | some y => some (some y)
        | none => none
      | none => some none
    else some none
  match yearO with
  | none => none
  | some year =>
    let siO : Option (Option (Nat × List Nat)) :=
      if detect_show_info then
        match findShow name with
        | some caps =>
          match showInfoOfChk caps with
          | some si => some (some si)
          | none => none
        | none => some none
      else some none
    match siO with
    | none => none
    | some show_info =>
      some (((pySplit name).map (fun p => pyLower (stripBrackets p))).filter (keepTok year),
            year, show_info)

-- ===== title casing =====

/-- Joining of parts with a single space, the effect of str.join. -/
def joinSpace : List (List Char) → List Char
  | [] => []
  | [p] => p
  | p :: ps => p ++ ' ' :: joinSpace ps

/-- Removal of leading and trailing whitespace, the effect of str.strip. -/
def pyStrip (s : List Char) : List Char :=
  ((s.dropWhile isSpace).reverse.dropWhile isSpace).reverse

/-- Splitting on maximal runs of characters satisfying f, dropping empty
pieces, with an accumulator for the current word in reverse. -/
def splitRunsAux (f : Char → Bool) : List Char → List Char → List (List Char)
  | [], acc => if acc.isEmpty then [] else [acc.reverse]
  | c :: cs, acc =>
    if f c then
      if acc.isEmpty then splitRunsAux f cs []
      else acc.reverse :: splitRunsAux f cs []
    else splitRunsAux f cs (c :: acc)

/-- The effect of str.split with no separator: maximal whitespace runs
separate the words and no empty word is produced. -/
def pySplitWs (s : List Char) : List (List Char) := splitRunsAux isSpace s []

/-- The small-word set of utils.py lines 73 to 76. -/
def SMALL_WORDS : List (List Char) :=
  ["a".data, "an".data, "and".data, "as".data, "at".data, "but".data, "by".data,
   "for".data, "in".data, "nor".data, "of".data, "on".data, "or".data, "per".data,
   "the".data, "to".data, "vs".data, "via".data]

/-- The effect of str.capitalize on ASCII text: first character raised, the
rest lowered. -/
def capitalize : List Char → List Char
  | [] => []
  | c :: cs => pyUpperChar c :: cs.map pyLowerChar

/-- The enumerate loop of smart_title: the word at index zero and every word
whose lowercase form is not small are capitalized, the other words are
lowercased (utils.py lines 78 to 84). -/
def smartLoop : Nat → List (List Char) → List (List Char)
  | _, [] => []
  | i, w :: rest =>
    (if i = 0 || !(SMALL_WORDS.contains (pyLower w)) then capitalize w else pyLower w)
      :: smartLoop (i + 1) rest

/-- Embedding of smart_title (utils.py lines 66 to 85). -/
def smart_title (text : List Char) : List Char :=
  joinSpace (smartLoop 0 (pySplitWs text))

-- ===== parse_movie =====

structure ParsedMovie where
  title : List Char
  year : Option Nat
deriving DecidableEq, Repr

/-- Embedding of parse_movie (utils.py lines 87 to 104). -/
def parse_movie (filename : List Char) : ParsedMovie :=
  let r := clean_parts filename true false
  ⟨smart_title (pyStrip (joinSpace r.1)), r.2.1⟩

/-- Checked variant of parse_movie. -/
def parse_movie_chk (filename : List Char) : Option ParsedMovie :=
  match clean_parts_chk filename true false with
  | none => none
  | some r => some ⟨smart_title (pyStrip (joinSpace r.1)), r.2.1⟩

-- ===== parse_show =====

structure ParsedShow where
  title : List Char
  season : Option Nat
  episodes : Option (List Nat)
  episode_title : Option (List Char)
deriving DecidableEq, Repr

/-- Whether a part equals the decimal string of one of the episodes. -/
def strEqAnyEp (eps : List Nat) (part : List Char) : Bool :=
  eps.any (fun e => natToStr e = part)

/-- Index of the first part equal to the decimal string of some episode,
or the length of the list when no part matches (utils.py lines 131 to 134). -/
def findTokenIdx (eps : List Nat) : List (List Char) → Nat
  | [] => 0
  | p :: ps => if strEqAnyEp eps p then 0 else findTokenIdx eps ps + 1

/-- The forward walk of utils.py lines 137 to 142 over the parts from
token_index on: last is moved to each consecutive matching index, the walk
stops at the first non-matching part. -/
def walkAux (eps : List Nat) : List (List Char) → Nat → Nat → Nat
  | [], _, last => last
  | p :: ps, i, last => if strEqAnyEp eps p then walkAux eps ps (i + 1) i else last

/-- The composition logic of parse_show after clean_parts (utils.py lines
118 to 154). -/
def parse_show_core (parts : List (List Char)) (show_info : Option (Nat × List Nat)) :
    ParsedShow :=
  match show_info with
  | none => ⟨smart_title (pyStrip (joinSpace parts)), none, none, none⟩
  | some si =>
    let ti := findTokenIdx si.2 parts
    let lei := walkAux si.2 (parts.drop ti) ti ti
    ⟨smart_title (pyStrip (joinSpace (parts.take ti))), some si.1, some si.2,
      if lei + 1 < parts.length then
        some (smart_title (pyStrip (joinSpace (parts.drop (lei + 1)))))
      else none⟩

/-- Embedding of parse_show (utils.py lines 106 to 154). -/
def parse_show (filename : List Char) : ParsedShow :=
  parse_show_core (clean_parts filename false true).1 (clean_parts filename false true).2.2

/-- Checked variant of parse_show. -/
def parse_show_chk (filename : List Char) : Option ParsedShow :=
  match clean_parts_chk filename false true with
  | none => none
  | some r => some (parse_show_core r.1 r.2.2)

-- ===== definitions written from the claims, for comparison =====

/-- Numeric view of the captures of the show regex. -/
def capsToNums (caps : List Char × List Char × Option (List Char)) : Nat × Nat × Option Nat :=
  (natFromDigits caps.1, natFromDigits caps.2.1, caps.2.2.map natFromDigits)

/-- Reading of exactly k digits at the head of a string, returning their
value and the remainder. -/
def readDigits (k : Nat) (s : List Char) : Option (Nat × List Char) :=
  if (s.take k).length = k && (s.take k).all isDigit then
    some (natFromDigits (s.take k), s.drop k)
  else none

/-- Modelled from the amended claim: the optional second episode is
introduced by an optional dash followed by an optional E, then two digits. -/
def specTail (s : List Char) : Option Nat :=
  let s1 := if s.head? = some '-' then s.drop 1 else s
  let s2 := if s1.head? = some 'E' || s1.head? = some 'e' then s1.drop 1 else s1
  (readDigits 2 s2).map Prod.fst

/-- Modelled from the frozen claim: the second episode is recognized only
when introduced by a dash or by a dash followed by E. -/
def claimTail (s : List Char) : Option Nat :=
  match s with
  | c :: rest =>
    if c = '-' then
      let s2 := if rest.head? = some 'E' || rest.head? = some 'e' then rest.drop 1 else rest
      (readDigits 2 s2).map Prod.fst
    else none
  | [] => none

/-- Separator, first episode and optional second episode, parameterized by
the rule for the second episode. -/
def genSep (tf : List Char → Option Nat) (se : Nat) :
    List Char → Option (Nat × Nat × Option Nat)
  | [] => none
  | c :: rest =>
    if sepOk c then
      match readDigits 2 rest with
      | some p => some (se, p.1, tf p.2)
      | none => none
    else none

/-- Season of one or two digits, the longer reading preferred, then the
separator and the episodes. -/
def genBody (tf : List Char → Option Nat) (s : List Char) :
    Option (Nat × Nat × Option Nat) :=
  match readDigits 2 s with
  | some p =>
    match genSep tf p.1 p.2 with
    | some r => some r
    | none =>
      match readDigits 1 s with
      | some q => genSep tf q.1 q.2
      | none => none
  | none =>
    match readDigits 1 s with
    | some q => genSep tf q.1 q.2
    | none => none

/-- Optional leading S, preferred consumed, tried without it on failure. -/
def genAt (tf : List Char → Option Nat) (s : List Char) :
    Option (Nat × Nat × Option Nat) :=
  if s.head? = some 'S' || s.head? = some 's' then
    match genBody tf (s.drop 1) with
    | some r => some r
    | none => genBody tf s
  else genBody tf s

/-- Leftmost search over the starting positions. -/
def genSearch (tf : List Char → Option Nat) : List Char → Option (Nat × Nat × Option Nat)
  | [] => none
  | c :: cs =>
    match genAt tf (c :: cs) with
    | some r => some r
    | none => genSearch tf cs

/-- Season and episode recognition as the amended claim describes it. -/
def specShowSearch (s : List Char) : Option (Nat × Nat × Option Nat) := genSearch specTail s

/-- Season and episode recognition as the frozen claim describes it. -/
def claimShowSearch (s : List Char) : Option (Nat × Nat × Option Nat) := genSearch claimTail s

/-- Modelled from the frozen claim about the split: the parts are the
delimiter-free substrings, produced by splitting on maximal delimiter runs. -/
def runSplit (s : List Char) : List (List Char) := splitRunsAux isDelim s []

/-- Interleaving of parts with one delimiter character between consecutive
parts, used to state which material the single-character split preserves. -/
def interleaveParts : List (List Char) → List Char → List Char
  | [], _ => []
  | p :: _, [] => p
  | p :: ps, d :: ds => p ++ d :: interleaveParts ps ds

/-- Modelled from the claim: rendering of a word after the first. -/
def specRenderRest (w : List Char) : List Char :=
  if SMALL_WORDS.contains (pyLower w) then pyLower w else capitalize w

/-- Modelled from the claim: the first word is always capitalized, every
later word is capitalized unless its lowercase form is small. -/
def specTitleWords : List (List Char) → List (List Char)
  | [] => []
  | w :: rest => capitalize w :: rest.map specRenderRest

/-- No two consecutive whitespace characters. -/
def noConsecSpaces : List Char → Bool
  | [] => true
  | [_] => true
  | c1 :: c2 :: rest => !(isSpace c1 && isSpace c2) && noConsecSpaces (c2 :: rest)

/-- The first character, when present, is not whitespace. -/
def noLeadSpace : List Char → Bool
  | [] => true
  | c :: _ => !isSpace c

/-- No whitespace anywhere in a word. -/
def noSpaceWord (w : List Char) : Bool := w.all (fun c => !isSpace c)

/-- A well-spaced rendered title: no consecutive spaces, no leading and no
trailing whitespace. -/
def goodTitle (t : List Char) : Bool :=
  noConsecSpaces t && noLeadSpace t && noLeadSpace t.reverse

/-- Lift of goodTitle to an optional field. -/
def optGood : Option (List Char) → Bool
  | some t => goodTitle t
  | none => true

-- ===== helper lemmas =====

theorem smartLoop_pos (ws : List (List Char)) (i : Nat) (h : i ≠ 0) :
    smartLoop i ws = ws.map specRenderRest := by
  induction ws generalizing i with
  | nil => rfl
  | cons w rest ih =>
    simp only [smartLoop, List.map]
    rw [ih (i + 1) (by omega)]
    simp only [specRenderRest]
    by_cases hc : SMALL_WORDS.contains (pyLower w) <;> simp [hc, h]

theorem smart_title_spec (text : List Char) :
    smart_title text = joinSpace (specTitleWords (pySplitWs text)) := by
  unfold smart_title
  cases hws : pySplitWs text with
  | nil => rfl
  | cons w rest =>
    simp only [specTitleWords, smartLoop]
    rw [smartLoop_pos rest 1 (by omega)]
    simp

-- ===== claim theorems =====

/-- C1: the spec states that parse_movie of "The.Matrix.1999.1080p.mkv"
yields the title "The Matrix" with the year 1999.  The code strips the
whole dotted tail starting at the first dot, so it returns the title "The"
and no year, contradicting the example given in its own docstring. -/
theorem c1_matrix_parse_movie :
    parse_movie ("The.Matrix.1999.1080p.mkv".data) = ⟨"The".data, none⟩ ∧
    parse_movie ("The.Matrix.1999.1080p.mkv".data) ≠ ⟨"The Matrix".data, some 1999⟩ := by
  decide

/-- C2: the spec states that parse_show of "Show.Name.S01E02.Episode.Title.mkv"
yields the title "Show Name", season 1, episodes [2] and the episode title
"Episode Title".  The code strips the whole dotted tail starting at the
first dot, leaving only "Show", so no show info is detected. -/
theorem c2_showname_parse_show :
    parse_show ("Show.Name.S01E02.Episode.Title.mkv".data) = ⟨"Show".data, none, none, none⟩ ∧
    parse_show ("Show.Name.S01E02.Episode.Title.mkv".data) ≠
      ⟨"Show Name".data, some 1, some [2], some ("Episode Title".data)⟩ := by
  decide

/-- C3 counterexample: the claim states that detected episodes are always a
non-empty contiguous run.  On "Show S01E05-E02.mkv" the code detects show
info with an empty episode list, because the captured range runs downward. -/
theorem c3_counterexample :
    ¬ (∀ se eps, (clean_parts ("Show S01E05-E02.mkv".data) false true).2.2 = some (se, eps) →
        eps ≠ []) :=
  fun h => h 1 [] (by decide) rfl

/-- C4 counterexample: the claim states that a second episode is recognized
only when introduced by a dash or by dash-E.  On "a s01e02e03" the code
recognizes the second episode 03 introduced by a bare E, so the detection
differs from the leftmost match of the grammar the claim describes. -/
theorem c4_counterexample :
    (findShow ("a s01e02e03".data)).map capsToNums = some (1, 2, some 3) ∧
    claimShowSearch ("a s01e02e03".data) = some (1, 2, none) ∧
    (clean_parts ("a s01e02e03".data) false true).2.2 = some (1, [2, 3]) ∧
    (findShow ("a s01e02e03".data)).map capsToNums ≠ claimShowSearch ("a s01e02e03".data) := by
  decide

/-- C5 counterexample: the claim states that the split is on maximal runs of
delimiters and produces no empty parts.  On "a--b.mkv" the stripped name is
"a--b" and the code splits on each single delimiter, producing the empty
part between the two dashes, which the maximal-run split does not produce. -/
theorem c5_counterexample :
    pySplit (stripExt ("a--b.mkv".data)) = [['a'], [], ['b']] ∧
    runSplit (stripExt ("a--b.mkv".data)) = [['a'], ['b']] ∧
    (clean_parts ("a--b.mkv".data) false false).1 = [['a'], [], ['b']] ∧
    pySplit (stripExt ("a--b.mkv".data)) ≠ runSplit (stripExt ("a--b.mkv".data)) := by
  decide

/-- C6: smart_title renders the first word capitalized even when small, and
every later word capitalized unless its lowercase form is a small word, in
which case the word is rendered fully lowercase; on "the lord of the rings"
it yields "The Lord of the Rings". -/
theorem c6_titlecase_rule :
    (∀ text, smart_title text = joinSpace (specTitleWords (pySplitWs text))) ∧
    smart_title ("the lord of the rings".data) = ("The Lord of the Rings".data) := by
  refine ⟨smart_title_spec, ?_⟩
  decide

theorem pySplit_ne_nil (cs : List Char) : pySplit cs ≠ [] := by
  cases cs with
  | nil => simp [pySplit]
  | cons c cs =>
    simp only [pySplit]
    split
    · simp
    · cases h : pySplit cs <;> simp

/-- C5 amended: the tokenizer splits the post-strip name on each single
occurrence of a delimiter character, so the parts are delimiter free, they
interleave with the delimiter occurrences to rebuild the name, and their
number is one more than the number of delimiter occurrences; consecutive
delimiters therefore yield empty parts. -/
theorem c5_split_amended (cs : List Char) :
    ((pySplit cs).all (fun p => p.all (fun c => !isDelim c))) = true ∧
    interleaveParts (pySplit cs) (cs.filter isDelim) = cs ∧
    (pySplit cs).length = (cs.filter isDelim).length + 1 := by
  induction cs with
  | nil => exact ⟨rfl, rfl, rfl⟩
  | cons c cs ih =>
    obtain ⟨iha, ihb, ihc⟩ := ih
    by_cases hD : isDelim c
    · refine ⟨?_, ?_, ?_⟩
      · simpa [pySplit, hD] using iha
      · cases h : pySplit cs with
        | nil => exact absurd h (pySplit_ne_nil cs)
        | cons p ps =>
          simp only [pySplit, hD, if_true, List.filter_cons, hD, interleaveParts,
            List.nil_append]
          rw [ihb]
      · simp [pySplit, hD, List.filter_cons, ihc]
    · cases h : pySplit cs with
      | nil => exact absurd h (pySplit_ne_nil cs)
      | cons p ps =>
        rw [h] at iha ihb ihc
        refine ⟨?_, ?_, ?_⟩
        · simp only [List.all_cons, Bool.and_eq_true] at iha
          simp [pySplit, hD, h, iha.1, iha.2]
        · simp only [pySplit, hD, if_false, h, List.filter_cons]
          cases hf : cs.filter isDelim with
          | nil =>
            rw [hf] at ihb ihc
            simp only [List.length_cons] at ihc
            have hps : ps = [] := by
              cases ps with
              | nil => rfl
              | cons q qs => simp at ihc
            subst hps
            simp only [interleaveParts] at ihb ⊢
            simp [hD, ihb]
          | cons d ds =>
            rw [hf] at ihb
            simp only [interleaveParts] at ihb ⊢
            simp [hD, List.cons_append, ihb]
        · simpa [pySplit, hD, h, List.filter_cons] using ihc

theorem findTokenIdx_notfound (eps : List Nat) (parts : List (List Char))
    (h : ∀ p ∈ parts, strEqAnyEp eps p = false) :
    findTokenIdx eps parts = parts.length := by
  induction parts with
  | nil => rfl
  | cons p ps ih =>
    have hp := h p (by simp)
    simp only [findTokenIdx, hp, Bool.false_eq_true, if_false, List.length_cons]
    rw [ih (fun q hq => h q (by simp [hq]))]

/-- C9: when show info is detected but no cleaned part equals the unpadded
decimal string of any detected episode, the boundary search finds nothing,
the title consumes every part including the marker part, the episode title
is none, and season and episodes are still reported from the regex match. -/
theorem c9_no_boundary_match (fn : List Char) (se : Nat) (eps : List Nat)
    (hsi : (clean_parts fn false true).2.2 = some (se, eps))
    (hno : ∀ p ∈ (clean_parts fn false true).1, ∀ e ∈ eps, natToStr e ≠ p) :
    parse_show fn =
      ⟨smart_title (pyStrip (joinSpace (clean_parts fn false true).1)),
        some se, some eps, none⟩ := by
  unfold parse_show
  rw [hsi]
  have hfalse : ∀ p ∈ (clean_parts fn false true).1, strEqAnyEp eps p = false := by
    intro p hp
    simp only [strEqAnyEp, List.any_eq_false, decide_eq_true_eq]
    exact fun e he => hno p hp e he
  have hidx : findTokenIdx eps (clean_parts fn false true).1
      = (clean_parts fn false true).1.length :=
    findTokenIdx_notfound _ _ hfalse
  simp only [parse_show_core, hidx, List.drop_length, walkAux, List.take_length]
  have hlt : ¬ ((clean_parts fn false true).1.length + 1 < (clean_parts fn false true).1.length) := by
    omega
  simp [hlt]

theorem c9_witness :
    parse_show ("Show Name S01E02.mkv".data) =
      ⟨smart_title (pyStrip (joinSpace (clean_parts ("Show Name S01E02.mkv".data) false true).1)),
        some 1, some [2], none⟩ :=
  c9_no_boundary_match _ 1 [2] (by decide) (by decide)

/-- C3 amended: whenever show info is detected, the episode list is a
contiguous ascending run starting at the first captured episode number
whenever it is non-empty; with no second capture, or an empty one, it is
the singleton first episode; with a nonempty second capture it is the full
inclusive integer range from the first episode up to the captured last
episode, which is empty exactly when the last is strictly below the
first. -/
theorem c3_episodes_amended (fn : List Char) (se : Nat) (eps : List Nat)
    (hsi : (clean_parts fn false true).2.2 = some (se, eps)) :
    ∃ caps, findShow (stripExt fn) = some caps ∧
      se = natFromDigits caps.1 ∧
      (eps ≠ [] → eps = List.range' (natFromDigits caps.2.1) eps.length) ∧
      ((caps.2.2 = none ∨ caps.2.2 = some []) → eps = [natFromDigits caps.2.1]) ∧
      (∀ g3, caps.2.2 = some g3 → g3 ≠ [] →
        eps = List.range' (natFromDigits caps.2.1)
          (natFromDigits g3 + 1 - natFromDigits caps.2.1)) ∧
      (eps = [] ↔ ∃ g3, caps.2.2 = some g3 ∧ g3 ≠ [] ∧
        natFromDigits g3 < natFromDigits caps.2.1) := by
  simp only [clean_parts, if_true, if_false, Bool.false_eq_true] at hsi
  rw [Option.map_eq_some'] at hsi
  obtain ⟨caps, hfind, hof⟩ := hsi
  obtain ⟨g1, g2, g3o⟩ := caps
  refine ⟨(g1, g2, g3o), hfind, ?_⟩
  dsimp only
  cases g3o with
  | none =>
    simp only [showInfoOf] at hof
    obtain ⟨hse, heps⟩ := Prod.mk.injEq .. ▸ hof
    subst hse; subst heps
    refine ⟨rfl, ?_, ?_, ?_, ?_⟩
    · intro _
      simp [List.range'_one]
    · intro _
      rfl
    · intro g3 hg3
      exact absurd hg3 (by simp)
    · simp
  | some g3 =>
    simp only [showInfoOf] at hof
    by_cases hg3 : g3.isEmpty
    · rw [if_pos hg3] at hof
      obtain ⟨hse, heps⟩ := Prod.mk.injEq .. ▸ hof
      subst hse; subst heps
      simp only [List.isEmpty_iff] at hg3
      subst hg3
      refine ⟨rfl, ?_, ?_, ?_, ?_⟩
      · intro _
        simp [List.range'_one]
      · intro _
        rfl
      · intro g3x hx hne
        obtain rfl : g3x = ([] : List Char) := by injection hx.symm
        exact absurd rfl hne
      · simp
    · rw [if_neg hg3] at hof
      obtain ⟨hse, heps⟩ := Prod.mk.injEq .. ▸ hof
      subst hse; subst heps
      simp only [List.isEmpty_iff] at hg3
      refine ⟨rfl, ?_, ?_, ?_, ?_⟩
      · intro hne
        have hlen : (pyRange (natFromDigits g2) (natFromDigits g3 + 1)).length
            = natFromDigits g3 + 1 - natFromDigits g2 := by
          simp [pyRange]
        rw [hlen]
        rfl
      · rintro (habs | habs)
        · exact absurd habs (by simp)
        · obtain rfl : g3 = ([] : List Char) := by injection habs
          exact absurd rfl hg3
      · intro g3x hx _
        obtain rfl : g3x = g3 := by injection hx.symm
        rfl
      · constructor
        · intro hnil
          refine ⟨g3, rfl, hg3, ?_⟩
          simp only [pyRange] at hnil
          rw [List.range'_eq_nil] at hnil
          omega
        · rintro ⟨g3x, hx, _, hlt⟩
          obtain rfl : g3x = g3 := by injection hx.symm
          simp only [pyRange]
          rw [List.range'_eq_nil]
          omega

theorem c3_witness :
    ∃ caps, findShow (stripExt ("a 1x02-04.mkv".data)) = some caps ∧
      1 = natFromDigits caps.1 ∧
      (([2, 3, 4] : List Nat) ≠ [] → [2, 3, 4] =
        List.range' (natFromDigits caps.2.1) ([2, 3, 4] : List Nat).length) ∧
      ((caps.2.2 = none ∨ caps.2.2 = some []) → [2, 3, 4] = [natFromDigits caps.2.1]) ∧
      (∀ g3, caps.2.2 = some g3 → g3 ≠ [] →
        [2, 3, 4] = List.range' (natFromDigits caps.2.1)
          (natFromDigits g3 + 1 - natFromDigits caps.2.1)) ∧
      (([2, 3, 4] : List Nat) = [] ↔ ∃ g3, caps.2.2 = some g3 ∧ g3 ≠ [] ∧
        natFromDigits g3 < natFromDigits caps.2.1) :=
  c3_episodes_amended _ 1 [2, 3, 4] (by decide)

theorem toNat_ofNat_lt {n : Nat} (h : n < 55296) : (Char.ofNat n).toNat = n := by
  have hv : n.isValidChar := Or.inl h
  simp [Char.ofNat, hv, Char.ofNatAux, Char.toNat, UInt32.toNat, BitVec.toNat_ofNatLt]

theorem isSpace_eq_decide (c : Char) :
    isSpace c = decide (c.toNat = 32 ∨ c.toNat = 9 ∨ c.toNat = 10 ∨ c.toNat = 13 ∨
      c.toNat = 11 ∨ c.toNat = 12) := by
  simp [isSpace, Bool.or_assoc]

theorem isSpace_pyLowerChar (c : Char) : isSpace (pyLowerChar c) = isSpace c := by
  unfold pyLowerChar
  split
  · next hcond =>
    rw [Bool.and_eq_true, decide_eq_true_eq, decide_eq_true_eq] at hcond
    obtain ⟨h1, h2⟩ := hcond
    have ht : (Char.ofNat (c.toNat + 32)).toNat = c.toNat + 32 := toNat_ofNat_lt (by omega)
    rw [isSpace_eq_decide, isSpace_eq_decide, decide_eq_decide, ht]
    omega
  · rfl

theorem isSpace_pyUpperChar (c : Char) : isSpace (pyUpperChar c) = isSpace c := by
  unfold pyUpperChar
  split
  · next hcond =>
    rw [Bool.and_eq_true, decide_eq_true_eq, decide_eq_true_eq] at hcond
    obtain ⟨h1, h2⟩ := hcond
    have ht : (Char.ofNat (c.toNat - 32)).toNat = c.toNat - 32 := toNat_ofNat_lt (by omega)
    rw [isSpace_eq_decide, isSpace_eq_decide, decide_eq_decide, ht]
    omega
  · rfl

theorem pyLowerChar_pyLowerChar (c : Char) : pyLowerChar (pyLowerChar c) = pyLowerChar c := by
  unfold pyLowerChar
  split
  · next hcond =>
    rw [Bool.and_eq_true, decide_eq_true_eq, decide_eq_true_eq] at hcond
    obtain ⟨h1, h2⟩ := hcond
    have ht : (Char.ofNat (c.toNat + 32)).toNat = c.toNat + 32 := toNat_ofNat_lt (by omega)
    have hno : ¬ ((65 ≤ (Char.ofNat (c.toNat + 32)).toNat &&
        (Char.ofNat (c.toNat + 32)).toNat ≤ 90) = true) := by
      rw [ht]
      simp only [Bool.and_eq_true, decide_eq_true_eq]
      omega
    rw [if_neg hno]
  · rfl

theorem pyLowerChar_pyUpperChar (c : Char) : pyLowerChar (pyUpperChar c) = pyLowerChar c := by
  unfold pyUpperChar
  split
  · next hcond =>
    rw [Bool.and_eq_true, decide_eq_true_eq, decide_eq_true_eq] at hcond
    obtain ⟨h1, h2⟩ := hcond
    have ht : (Char.ofNat (c.toNat - 32)).toNat = c.toNat - 32 := toNat_ofNat_lt (by omega)
    unfold pyLowerChar
    have hyes : (65 ≤ (Char.ofNat (c.toNat - 32)).toNat &&
        (Char.ofNat (c.toNat - 32)).toNat ≤ 90) = true := by
      rw [ht]
      simp only [Bool.and_eq_true, decide_eq_true_eq]
      omega
    have hno : ¬ ((65 ≤ c.toNat && c.toNat ≤ 90) = true) := by
      simp only [Bool.and_eq_true, decide_eq_true_eq]
      omega
    rw [if_pos hyes, if_neg hno, ht]
    have harith : c.toNat - 32 + 32 = c.toNat := by omega
    rw [harith, Char.ofNat_toNat]
  · rfl

theorem pyUpperChar_pyUpperChar (c : Char) : pyUpperChar (pyUpperChar c) = pyUpperChar c := by
  unfold pyUpperChar
  split
  · next hcond =>
    rw [Bool.and_eq_true, decide_eq_true_eq, decide_eq_true_eq] at hcond
    obtain ⟨h1, h2⟩ := hcond
    have ht : (Char.ofNat (c.toNat - 32)).toNat = c.toNat - 32 := toNat_ofNat_lt (by omega)
    have hno : ¬ ((97 ≤ (Char.ofNat (c.toNat - 32)).toNat &&
        (Char.ofNat (c.toNat - 32)).toNat ≤ 122) = true) := by
      rw [ht]
      simp only [Bool.and_eq_true, decide_eq_true_eq]
      omega
    rw [if_neg hno]
  · rfl

theorem pyLower_pyLower (w : List Char) : pyLower (pyLower w) = pyLower w := by
  simp only [pyLower, List.map_map]
  apply List.map_congr_left
  intro a _
  exact pyLowerChar_pyLowerChar a

theorem capitalize_capitalize (w : List Char) : capitalize (capitalize w) = capitalize w := by
  cases w with
  | nil => rfl
  | cons c cs =>
    simp only [capitalize, List.map_map]
    rw [pyUpperChar_pyUpperChar]
    congr 1
    apply List.map_congr_left
    intro a _
    exact pyLowerChar_pyLowerChar a

theorem pyLower_capitalize (w : List Char) : pyLower (capitalize w) = pyLower w := by
  cases w with
  | nil => rfl
  | cons c cs =>
    simp only [capitalize, pyLower, List.map_cons, List.map_map]
    rw [pyLowerChar_pyUpperChar]
    congr 1
    apply List.map_congr_left
    intro a _
    exact pyLowerChar_pyLowerChar a

theorem specRenderRest_idem (w : List Char) :
    specRenderRest (specRenderRest w) = specRenderRest w := by
  unfold specRenderRest
  by_cases hc : SMALL_WORDS.contains (pyLower w)
  · rw [if_pos hc, pyLower_pyLower, if_pos hc]
  · rw [if_neg hc, pyLower_capitalize, if_neg hc, capitalize_capitalize]

theorem smartLoop_zero (ws : List (List Char)) : smartLoop 0 ws = specTitleWords ws := by
  cases ws with
  | nil => rfl
  | cons w rest =>
    simp only [smartLoop, specTitleWords]
    rw [smartLoop_pos rest 1 (by omega)]
    simp

theorem specTitleWords_idem (ws : List (List Char)) :
    specTitleWords (specTitleWords ws) = specTitleWords ws := by
  cases ws with
  | nil => rfl
  | cons w rest =>
    simp only [specTitleWords, List.map_map]
    rw [capitalize_capitalize]
    congr 1
    apply List.map_congr_left
    intro a _
    exact specRenderRest_idem a

theorem splitRunsAux_words (f : Char → Bool) (s : List Char) :
    ∀ acc, (∀ c ∈ acc, f c = false) →
      ∀ w ∈ splitRunsAux f s acc, w ≠ [] ∧ w.all (fun c => !f c) = true := by
  induction s with
  | nil =>
    intro acc hacc w hw
    simp only [splitRunsAux] at hw
    split at hw
    · simp at hw
    · next hne =>
      simp only [List.mem_singleton] at hw
      subst hw
      refine ⟨?_, ?_⟩
      · intro habs
        rw [List.reverse_eq_nil_iff] at habs
        subst habs
        simp at hne
      · simp only [List.all_eq_true, Bool.not_eq_true']
        intro c hc
        exact hacc c (List.mem_reverse.mp hc)
  | cons c cs ih =>
    intro acc hacc w hw
    simp only [splitRunsAux] at hw
    by_cases hf : f c
    · rw [if_pos hf] at hw
      split at hw
      · exact ih [] (by simp) w hw
      · next hne =>
        rcases List.mem_cons.mp hw with hw | hw
        · subst hw
          refine ⟨?_, ?_⟩
          · intro habs
            rw [List.reverse_eq_nil_iff] at habs
            subst habs
            simp at hne
          · simp only [List.all_eq_true, Bool.not_eq_true']
            intro d hd
            exact hacc d (List.mem_reverse.mp hd)
        · exact ih [] (by simp) w hw
    · rw [if_neg hf] at hw
      refine ih (c :: acc) ?_ w hw
      intro d hd
      rcases List.mem_cons.mp hd with hd | hd
      · subst hd
        simpa using hf
      · exact hacc d hd

theorem splitRunsAux_append (f : Char → Bool) (w : List Char) :
    ∀ s acc, w.all (fun c => !f c) = true →
      splitRunsAux f (w ++ s) acc = splitRunsAux f s (w.reverse ++ acc) := by
  induction w with
  | nil => intro s acc _; simp
  | cons c w' ih =>
    intro s acc hall
    simp only [List.all_cons, Bool.and_eq_true, Bool.not_eq_true'] at hall
    obtain ⟨hc, hall'⟩ := hall
    simp only [List.cons_append, splitRunsAux, hc, Bool.false_eq_true, if_false, List.append_eq]
    rw [ih s (c :: acc) hall']
    congr 1
    simp

theorem pySplitWs_word (w : List Char) (hne : w ≠ []) (hns : noSpaceWord w = true) :
    pySplitWs w = [w] := by
  unfold pySplitWs
  have h := splitRunsAux_append isSpace w [] [] hns
  rw [List.append_nil, List.append_nil] at h
  rw [h]
  simp only [splitRunsAux, List.isEmpty_iff, List.reverse_eq_nil_iff]
  rw [if_neg hne, List.reverse_reverse]

theorem pySplitWs_joinSpace (ws : List (List Char))
    (h : ∀ w ∈ ws, w ≠ [] ∧ noSpaceWord w = true) :
    pySplitWs (joinSpace ws) = ws := by
  induction ws with
  | nil => rfl
  | cons w ws ih =>
    obtain ⟨hne, hns⟩ := h w (by simp)
    cases ws with
    | nil => exact pySplitWs_word w hne hns
    | cons w2 ws2 =>
      show pySplitWs (w ++ ' ' :: joinSpace (w2 :: ws2)) = w :: w2 :: ws2
      unfold pySplitWs
      rw [splitRunsAux_append isSpace w _ [] hns, List.append_nil]
      have hsp : isSpace ' ' = true := by decide
      simp only [splitRunsAux, hsp, if_true, List.isEmpty_iff, List.reverse_eq_nil_iff]
      rw [if_neg hne, List.reverse_reverse]
      exact congrArg (w :: ·) (ih (fun v hv => h v (by simp [hv])))

theorem capitalize_good (w : List Char) (hne : w ≠ []) (hns : noSpaceWord w = true) :
    capitalize w ≠ [] ∧ noSpaceWord (capitalize w) = true := by
  cases w with
  | nil => exact absurd rfl hne
  | cons c cs =>
    simp only [noSpaceWord, List.all_cons, Bool.and_eq_true, Bool.not_eq_true'] at hns
    obtain ⟨hc, hcs⟩ := hns
    refine ⟨by simp [capitalize], ?_⟩
    simp only [capitalize, noSpaceWord, List.all_cons, List.all_map, Bool.and_eq_true,
      Bool.not_eq_true']
    refine ⟨by rw [isSpace_pyUpperChar]; exact hc, ?_⟩
    rw [List.all_eq_true] at hcs ⊢
    intro d hd
    simp only [Function.comp_apply, Bool.not_eq_true']
    rw [isSpace_pyLowerChar]
    have := hcs d hd
    simpa using this

theorem pyLower_good (w : List Char) (hne : w ≠ []) (hns : noSpaceWord w = true) :
    pyLower w ≠ [] ∧ noSpaceWord (pyLower w) = true := by
  refine ⟨by cases w with | nil => exact absurd rfl hne | cons c cs => simp [pyLower], ?_⟩
  simp only [pyLower, noSpaceWord, List.all_map]
  rw [List.all_eq_true]
  simp only [noSpaceWord, List.all_eq_true] at hns
  intro d hd
  simp only [Function.comp_apply, Bool.not_eq_true']
  rw [isSpace_pyLowerChar]
  have := hns d hd
  simpa using this

theorem smartLoop_words_good (ws : List (List Char)) :
    ∀ i, (∀ w ∈ ws, w ≠ [] ∧ noSpaceWord w = true) →
      ∀ v ∈ smartLoop i ws, v ≠ [] ∧ noSpaceWord v = true := by
  induction ws with
  | nil => intro i _ v hv; simp [smartLoop] at hv
  | cons w rest ih =>
    intro i h v hv
    obtain ⟨hne, hns⟩ := h w (by simp)
    simp only [smartLoop, List.mem_cons] at hv
    rcases hv with hv | hv
    · subst hv
      split
      · exact capitalize_good w hne hns
      · exact pyLower_good w hne hns
    · exact ih (i + 1) (fun u hu => h u (by simp [hu])) v hv

theorem noConsecSpaces_append (w : List Char) :
    ∀ s, noSpaceWord w = true → noConsecSpaces (w ++ s) = noConsecSpaces s := by
  induction w with
  | nil => intro s _; rfl
  | cons c w' ih =>
    intro s hns
    simp only [noSpaceWord, List.all_cons, Bool.and_eq_true, Bool.not_eq_true'] at hns
    obtain ⟨hc, hns'⟩ := hns
    have ihw := ih s hns'
    cases hw : w' ++ s with
    | nil =>
      obtain ⟨hw', hs⟩ := List.append_eq_nil.mp hw
      subst hs
      subst hw'
      simp [noConsecSpaces]
    | cons d t =>
      rw [List.cons_append, hw, noConsecSpaces, ← hw, ihw]
      simp [hc]

theorem noSpaceWord_reverse (w : List Char) (h : noSpaceWord w = true) :
    noSpaceWord w.reverse = true := by
  simp only [noSpaceWord, List.all_eq_true] at h ⊢
  exact fun c hc => h c (List.mem_reverse.mp hc)

theorem noLeadSpace_of_noSpaceWord (w : List Char) (h : noSpaceWord w = true) :
    noLeadSpace w = true := by
  cases w with
  | nil => rfl
  | cons c cs =>
    simp only [noSpaceWord, List.all_cons, Bool.and_eq_true] at h
    simpa [noLeadSpace] using h.1

theorem noLeadSpace_append (xs ys : List Char) (hne : xs ≠ []) :
    noLeadSpace (xs ++ ys) = noLeadSpace xs := by
  cases xs with
  | nil => exact absurd rfl hne
  | cons c cs => rfl

theorem joinSpace_head (v : List Char) (vs : List (List Char)) (hne : v ≠ []) :
    joinSpace (v :: vs) ≠ [] ∧ noLeadSpace (joinSpace (v :: vs)) = noLeadSpace v := by
  cases vs with
  | nil => exact ⟨hne, rfl⟩
  | cons w2 ws2 =>
    show v ++ ' ' :: joinSpace (w2 :: ws2) ≠ [] ∧ _
    refine ⟨by simp, ?_⟩
    exact noLeadSpace_append v _ hne

theorem joinSpace_good (ws : List (List Char))
    (h : ∀ w ∈ ws, w ≠ [] ∧ noSpaceWord w = true) :
    goodTitle (joinSpace ws) = true := by
  induction ws with
  | nil => rfl
  | cons w ws ih =>
    obtain ⟨hne, hns⟩ := h w (by simp)
    cases ws with
    | nil =>
      show goodTitle w = true
      unfold goodTitle
      have h1 : noConsecSpaces w = true := by
        have := noConsecSpaces_append w [] hns
        simpa using this
      have h2 := noLeadSpace_of_noSpaceWord w hns
      have h3 := noLeadSpace_of_noSpaceWord w.reverse (noSpaceWord_reverse w hns)
      simp [h1, h2, h3]
    | cons w2 ws2 =>
      have hrest : ∀ v ∈ w2 :: ws2, v ≠ [] ∧ noSpaceWord v = true :=
        fun v hv => h v (by simp [hv])
      have ihg := ih hrest
      obtain ⟨hw2ne, hw2ns⟩ := hrest w2 (by simp)
      obtain ⟨hj2ne, hj2lead⟩ := joinSpace_head w2 ws2 hw2ne
      unfold goodTitle at ihg ⊢
      rw [Bool.and_eq_true, Bool.and_eq_true] at ihg
      obtain ⟨⟨ig1, ig2⟩, ig3⟩ := ihg
      show (noConsecSpaces (w ++ ' ' :: joinSpace (w2 :: ws2)) &&
        noLeadSpace (w ++ ' ' :: joinSpace (w2 :: ws2)) &&
        noLeadSpace (w ++ ' ' :: joinSpace (w2 :: ws2)).reverse) = true
      have hc1 : noConsecSpaces (w ++ ' ' :: joinSpace (w2 :: ws2)) = true := by
        rw [noConsecSpaces_append w _ hns]
        cases hj : joinSpace (w2 :: ws2) with
        | nil => exact absurd hj hj2ne
        | cons d t =>
          have hd : isSpace d = false := by
            have := hj2lead
            rw [hj] at this
            have hlw2 := noLeadSpace_of_noSpaceWord w2 hw2ns
            rw [hlw2] at this
            simpa [noLeadSpace] using this
          rw [noConsecSpaces, ← hj, ig1]
          simp [hd]
      have hc2 : noLeadSpace (w ++ ' ' :: joinSpace (w2 :: ws2)) = true := by
        rw [noLeadSpace_append w _ hne]
        exact noLeadSpace_of_noSpaceWord w hns
      have hc3 : noLeadSpace (w ++ ' ' :: joinSpace (w2 :: ws2)).reverse = true := by
        rw [List.reverse_append, List.reverse_cons]
        rw [List.append_assoc]
        rw [noLeadSpace_append _ _ (by simpa using hj2ne)]
        exact ig3
      rw [hc1, hc2, hc3]
      rfl

theorem smart_title_good (t : List Char) : goodTitle (smart_title t) = true := by
  unfold smart_title
  apply joinSpace_good
  exact smartLoop_words_good _ 0 (splitRunsAux_words isSpace t [] (by simp))

/-- C7: smart_title is idempotent on every ASCII input string. -/
theorem c7_titlecase_idempotent (s : List Char) (_hascii : ∀ c ∈ s, c.toNat < 128) :
    smart_title (smart_title s) = smart_title s := by
  have hgood : ∀ w ∈ pySplitWs s, w ≠ [] ∧ noSpaceWord w = true :=
    splitRunsAux_words isSpace s [] (by simp)
  have houtgood : ∀ v ∈ smartLoop 0 (pySplitWs s), v ≠ [] ∧ noSpaceWord v = true :=
    smartLoop_words_good _ 0 hgood
  unfold smart_title
  rw [pySplitWs_joinSpace _ houtgood, smartLoop_zero, smartLoop_zero, specTitleWords_idem]

theorem c7_witness :
    smart_title (smart_title ("the lord of the rings".data)) =
      smart_title ("the lord of the rings".data) :=
  c7_titlecase_idempotent _ (by decide)

/-- C10: the title fields built by parse_movie and parse_show, and the
episode title when present, never contain consecutive spaces and never
carry leading or trailing whitespace, because smart_title splits its input
on whitespace runs and rejoins the words with single spaces. -/
theorem c10_clean_spacing (fn : List Char) :
    goodTitle (parse_movie fn).title = true ∧
    goodTitle (parse_show fn).title = true ∧
    optGood (parse_show fn).episode_title = true := by
  refine ⟨smart_title_good _, ?_, ?_⟩
  · unfold parse_show parse_show_core
    cases (clean_parts fn false true).2.2 with
    | none => exact smart_title_good _
    | some si => exact smart_title_good _
  · unfold parse_show parse_show_core
    cases (clean_parts fn false true).2.2 with
    | none => rfl
    | some si =>
      dsimp only
      split
      · exact smart_title_good _
      · rfl

theorem twoDigits_digits {s g r : List Char} (h : twoDigits s = some (g, r)) :
    g ≠ [] ∧ g.all isDigit = true := by
  cases s with
  | nil => simp [twoDigits] at h
  | cons a t =>
    cases t with
    | nil => simp [twoDigits] at h
    | cons b rest =>
      simp only [twoDigits] at h
      split at h
      · next hd =>
        rw [Bool.and_eq_true] at hd
        simp only [Option.some.injEq, Prod.mk.injEq] at h
        obtain ⟨hg, _⟩ := h
        subst hg
        exact ⟨by simp, by simp [hd.1, hd.2]⟩
      · simp at h

theorem epart_digits {s g : List Char} (h : epart s = some g) :
    g ≠ [] ∧ g.all isDigit = true := by
  cases s with
  | nil => simp [epart] at h
  | cons c rest =>
    simp only [epart] at h
    split at h
    · split at h
      · next g2 r2 heq =>
        obtain rfl : g2 = g := by injection h
        exact twoDigits_digits heq
      · split at h
        · next g2 r2 heq =>
          obtain rfl : g2 = g := by injection h
          exact twoDigits_digits heq
        · simp at h
    · split at h
      · next g2 r2 heq =>
        obtain rfl : g2 = g := by injection h
        exact twoDigits_digits heq
      · simp at h

theorem tailEp_digits {s g : List Char} (h : tailEp s = some g) :
    g ≠ [] ∧ g.all isDigit = true := by
  cases s with
  | nil => simp [tailEp] at h
  | cons c rest =>
    simp only [tailEp] at h
    split at h
    · split at h
      · next g2 heq =>
        obtain rfl : g2 = g := by injection h
        exact epart_digits heq
      · exact epart_digits h
    · exact epart_digits h

theorem sepEp_shape {g1 s : List Char} {caps : List Char × List Char × Option (List Char)}
    (h : sepEp g1 s = some caps) :
    caps.1 = g1 ∧ (caps.2.1 ≠ [] ∧ caps.2.1.all isDigit = true) ∧
      (∀ g, caps.2.2 = some g → g ≠ [] ∧ g.all isDigit = true) := by
  cases s with
  | nil => simp [sepEp] at h
  | cons c rest =>
    simp only [sepEp] at h
    split at h
    · split at h
      · next g2 rest2 heq =>
        obtain rfl : (g1, g2, tailEp rest2) = caps := by injection h
        refine ⟨rfl, twoDigits_digits heq, ?_⟩
        intro g hg
        exact tailEp_digits hg
      · simp at h
    · simp at h

theorem afterS_shape {s : List Char} {caps : List Char × List Char × Option (List Char)}
    (h : afterS s = some caps) :
    (caps.1 ≠ [] ∧ caps.1.all isDigit = true) ∧
      (caps.2.1 ≠ [] ∧ caps.2.1.all isDigit = true) ∧
      (∀ g, caps.2.2 = some g → g ≠ [] ∧ g.all isDigit = true) := by
  cases s with
  | nil => simp [afterS] at h
  | cons a rest =>
    cases rest with
    | nil =>
      simp only [afterS] at h
      split at h
      · next ha =>
        obtain ⟨h1, h2, h3⟩ := sepEp_shape h
        exact ⟨h1 ▸ ⟨by simp, by simp [ha]⟩, h2, h3⟩
      · simp at h
    | cons b rest2 =>
      simp only [afterS] at h
      split at h
      · next ha =>
        split at h
        · next hb =>
          split at h
          · next r heq =>
            replace h : r = caps := by injection h
            subst h
            obtain ⟨h1, h2, h3⟩ := sepEp_shape heq
            exact ⟨h1 ▸ ⟨by simp, by simp [ha, hb]⟩, h2, h3⟩
          · obtain ⟨h1, h2, h3⟩ := sepEp_shape h
            exact ⟨h1 ▸ ⟨by simp, by simp [ha]⟩, h2, h3⟩
        · obtain ⟨h1, h2, h3⟩ := sepEp_shape h
          exact ⟨h1 ▸ ⟨by simp, by simp [ha]⟩, h2, h3⟩
      · simp at h

theorem showAt_shape {s : List Char} {caps : List Char × List Char × Option (List Char)}
    (h : showAt s = some caps) :
    (caps.1 ≠ [] ∧ caps.1.all isDigit = true) ∧
      (caps.2.1 ≠ [] ∧ caps.2.1.all isDigit = true) ∧
      (∀ g, caps.2.2 = some g → g ≠ [] ∧ g.all isDigit = true) := by
  cases s with
  | nil => simp [showAt] at h
  | cons c cs =>
    simp only [showAt] at h
    split at h
    · split at h
      · next r heq =>
        obtain rfl : r = caps := by injection h
        exact afterS_shape heq
      · exact afterS_shape h
    · exact afterS_shape h

theorem findShow_shape {s : List Char} {caps : List Char × List Char × Option (List Char)}
    (h : findShow s = some caps) :
    (caps.1 ≠ [] ∧ caps.1.all isDigit = true) ∧
      (caps.2.1 ≠ [] ∧ caps.2.1.all isDigit = true) ∧
      (∀ g, caps.2.2 = some g → g ≠ [] ∧ g.all isDigit = true) := by
  induction s with
  | nil => simp [findShow] at h
  | cons c cs ih =>
    simp only [findShow] at h
    split at h
    · next r heq =>
      obtain rfl : r = caps := by injection h
      exact showAt_shape heq
    · exact ih h

theorem findYear_digits {s g : List Char} (h : findYear s = some g) :
    g ≠ [] ∧ g.all isDigit = true := by
  induction s with
  | nil => simp [findYear] at h
  | cons c cs ih =>
    simp only [findYear] at h
    split at h
    · next g2 heq =>
      replace h : g2 = g := by injection h
      subst h
      cases cs with
      | nil => simp [yearAt] at heq
      | cons b t =>
        cases t with
        | nil => simp [yearAt] at heq
        | cons d t2 =>
          cases t2 with
          | nil => simp [yearAt] at heq
          | cons e t3 =>
            simp only [yearAt] at heq
            split at heq
            · next hcond =>
              rw [Bool.and_eq_true, Bool.and_eq_true] at hcond
              obtain ⟨hab, hcd1, hcd2⟩ := hcond
              replace heq : [c, b, d, e] = g2 := by injection heq
              subst heq
              refine ⟨by simp, ?_⟩
              rcases Bool.or_eq_true .. ▸ hab with h19 | h20
              · rw [Bool.and_eq_true, decide_eq_true_eq, decide_eq_true_eq] at h19
                obtain ⟨rfl, rfl⟩ := h19
                simp only [List.all_cons, hcd1, hcd2, Bool.and_true]
                decide
              · rw [Bool.and_eq_true, decide_eq_true_eq, decide_eq_true_eq] at h20
                obtain ⟨rfl, rfl⟩ := h20
                simp only [List.all_cons, hcd1, hcd2, Bool.and_true]
                decide
            · simp at heq
    · exact ih h

theorem parseNatQ_of_digits {g : List Char} (hne : g ≠ []) (hd : g.all isDigit = true) :
    parseNatQ g = some (natFromDigits g) := by
  unfold parseNatQ
  rw [if_pos]
  rw [Bool.and_eq_true]
  refine ⟨?_, hd⟩
  simp [List.isEmpty_iff, hne]

theorem showInfoOfChk_eq {caps : List Char × List Char × Option (List Char)}
    (h1 : caps.1 ≠ [] ∧ caps.1.all isDigit = true)
    (h2 : caps.2.1 ≠ [] ∧ caps.2.1.all isDigit = true)
    (h3 : ∀ g, caps.2.2 = some g → g ≠ [] ∧ g.all isDigit = true) :
    showInfoOfChk caps = some (showInfoOf caps) := by
  obtain ⟨g1, g2, g3o⟩ := caps
  dsimp only at h1 h2 h3
  simp only [showInfoOfChk, showInfoOf]
  rw [parseNatQ_of_digits h1.1 h1.2, parseNatQ_of_digits h2.1 h2.2]
  cases g3o with
  | none => rfl
  | some g3 =>
    obtain ⟨hne, hd⟩ := h3 g3 rfl
    have hemp : g3.isEmpty = false := by simp [hne]
    simp [parseNatQ_of_digits hne hd, hemp]

theorem clean_parts_chk_eq (fn : List Char) (dy dsi : Bool) :
    clean_parts_chk fn dy dsi = some (clean_parts fn dy dsi) := by
  unfold clean_parts_chk clean_parts
  cases dy with
  | false =>
    cases dsi with
    | false => rfl
    | true =>
      dsimp only
      cases hfs : findShow (stripExt fn) with
      | none => rfl
      | some caps =>
        obtain ⟨s1, s2, s3⟩ := findShow_shape hfs
        simp [showInfoOfChk_eq s1 s2 s3]
  | true =>
    dsimp only
    cases hfy : findYear (stripExt fn) with
    | none =>
      cases dsi with
      | false => rfl
      | true =>
        dsimp only
        cases hfs : findShow (stripExt fn) with
        | none => rfl
        | some caps =>
          obtain ⟨s1, s2, s3⟩ := findShow_shape hfs
          simp [showInfoOfChk_eq s1 s2 s3]
    | some g =>
      obtain ⟨hne, hd⟩ := findYear_digits hfy
      cases dsi with
      | false => simp [parseNatQ_of_digits hne hd]
      | true =>
        dsimp only
        cases hfs : findShow (stripExt fn) with
        | none => simp [parseNatQ_of_digits hne hd]
        | some caps =>
          obtain ⟨s1, s2, s3⟩ := findShow_shape hfs
          simp [parseNatQ_of_digits hne hd, showInfoOfChk_eq s1 s2 s3]

theorem parse_movie_chk_eq (fn : List Char) :
    parse_movie_chk fn = some (parse_movie fn) := by
  unfold parse_movie_chk parse_movie
  rw [clean_parts_chk_eq]

theorem parse_show_chk_eq (fn : List Char) :
    parse_show_chk fn = some (parse_show fn) := by
  unfold parse_show_chk parse_show
  rw [clean_parts_chk_eq]

/-- C8: the checked embeddings of parse_movie and parse_show, in which every
Python operation that could raise is modelled as fallible, succeed on every
input string, and absent year or show patterns yield absent result fields
rather than failures. -/
theorem c8_total_no_failure (fn : List Char) :
    parse_movie_chk fn = some (parse_movie fn) ∧
    parse_show_chk fn = some (parse_show fn) ∧
    (findYear (stripExt fn) = none → (parse_movie fn).year = none) ∧
    (findShow (stripExt fn) = none →
      (parse_show fn).season = none ∧ (parse_show fn).episodes = none ∧
      (parse_show fn).episode_title = none) := by
  refine ⟨parse_movie_chk_eq fn, parse_show_chk_eq fn, ?_, ?_⟩
  · intro h
    unfold parse_movie clean_parts
    simp [h]
  · intro h
    unfold parse_show parse_show_core clean_parts
    simp [h]

theorem c8_witness :
    (parse_movie ("abc".data)).year = none ∧ (parse_show ("abc".data)).season = none :=
  ⟨(c8_total_no_failure ("abc".data)).2.2.1 (by decide),
   ((c8_total_no_failure ("abc".data)).2.2.2 (by decide)).1⟩

theorem twoDigits_nondigit_head {a : Char} (t : List Char) (ha : isDigit a = false) :
    twoDigits (a :: t) = none := by
  cases t with
  | nil => rfl
  | cons b r => simp [twoDigits, ha]

theorem twoDigits_readDigits (s : List Char) :
    (twoDigits s).map (fun p => (natFromDigits p.1, p.2)) = readDigits 2 s := by
  match s with
  | [] => rfl
  | [a] => rfl
  | a :: b :: r =>
    simp only [twoDigits, readDigits]
    by_cases ha : isDigit a <;> by_cases hb : isDigit b <;>
      simp [ha, hb, List.take_succ_cons, List.drop_succ_cons]

theorem epart_spec (u : List Char) :
    (epart u).map natFromDigits =
      (readDigits 2 (if u.head? = some 'E' || u.head? = some 'e' then u.drop 1 else u)).map
        Prod.fst := by
  cases u with
  | nil => rfl
  | cons c rest =>
    simp only [epart, List.head?_cons, Option.some.injEq, List.drop_succ_cons, List.drop_zero]
    by_cases hE : c = 'E' ∨ c = 'e'
    · have hcond : (decide (c = 'E') || decide (c = 'e')) = true := by
        rcases hE with h | h <;> simp [h]
      have hdig : isDigit c = false := by
        rcases hE with h | h <;> subst h <;> decide
      rw [if_pos hcond, if_pos hcond]
      cases htd : twoDigits rest with
      | none =>
        have hback := twoDigits_nondigit_head rest hdig
        have hrd := twoDigits_readDigits rest
        rw [htd] at hrd
        rw [hback, ← hrd]
        rfl
      | some p =>
        obtain ⟨g, r2⟩ := p
        have hrd := twoDigits_readDigits rest
        rw [htd] at hrd
        rw [← hrd]
        rfl
    · have hcond : (decide (c = 'E') || decide (c = 'e')) = false := by
        push_neg at hE
        simp [hE.1, hE.2]
      rw [if_neg (by simp [hcond]), if_neg (by simp [hcond])]
      cases htd : twoDigits (c :: rest) with
      | none =>
        have hrd := twoDigits_readDigits (c :: rest)
        rw [htd] at hrd
        rw [← hrd]
        rfl
      | some p =>
        obtain ⟨g, r2⟩ := p
        have hrd := twoDigits_readDigits (c :: rest)
        rw [htd] at hrd
        rw [← hrd]
        rfl

theorem epart_dash (rest : List Char) : epart ('-' :: rest) = none := by
  simp only [epart]
  rw [if_neg (by decide)]
  rw [twoDigits_nondigit_head rest (by decide)]

theorem tailEp_specTail (s : List Char) :
    (tailEp s).map natFromDigits = specTail s := by
  cases s with
  | nil => rfl
  | cons c rest =>
    by_cases hc : c = '-'
    · subst hc
      have h1 : tailEp ('-' :: rest) =
          match epart rest with
          | some g => some g
          | none => epart ('-' :: rest) := by
        simp [tailEp]
      rw [h1, epart_dash]
      have h2 : specTail ('-' :: rest) =
          (readDigits 2 (if rest.head? = some 'E' || rest.head? = some 'e' then
            rest.drop 1 else rest)).map Prod.fst := by
        unfold specTail
        rw [if_pos (by simp)]
        rfl
      rw [h2, ← epart_spec]
      cases he : epart rest <;> rfl
    · have h1 : tailEp (c :: rest) = epart (c :: rest) := by
        simp [tailEp, hc]
      have h2 : specTail (c :: rest) =
          (readDigits 2 (if (c :: rest).head? = some 'E' || (c :: rest).head? = some 'e' then
            (c :: rest).drop 1 else (c :: rest))).map Prod.fst := by
        unfold specTail
        rw [if_neg (by simp [hc])]
      rw [h1, h2, ← epart_spec]

theorem sepEp_genSep (g1 s : List Char) :
    (sepEp g1 s).map capsToNums = genSep specTail (natFromDigits g1) s := by
  cases s with
  | nil => rfl
  | cons c rest =>
    simp only [sepEp, genSep]
    by_cases hsep : sepOk c
    · rw [if_pos hsep, if_pos hsep]
      have hrd := twoDigits_readDigits rest
      cases htd : twoDigits rest with
      | none =>
        rw [htd] at hrd
        simp only [Option.map_none'] at hrd
        rw [← hrd]
        rfl
      | some p =>
        obtain ⟨g2, r2⟩ := p
        rw [htd] at hrd
        simp only [Option.map_some'] at hrd
        rw [← hrd]
        simp only [Option.map_some', capsToNums]
        rw [← tailEp_specTail]
    · rw [if_neg hsep, if_neg hsep]
      rfl

theorem afterS_genBody (s : List Char) :
    (afterS s).map capsToNums = genBody specTail s := by
  cases s with
  | nil => rfl
  | cons a rest =>
    by_cases ha : isDigit a
    · cases rest with
      | nil =>
        have h1 : afterS [a] = sepEp [a] [] := by simp [afterS, ha]
        rw [h1]
        have h2 : genBody specTail [a] = genSep specTail (natFromDigits [a]) [] := by
          unfold genBody
          have hrd2 : readDigits 2 [a] = none := by
            simp [readDigits]
          have hrd1 : readDigits 1 [a] = some (natFromDigits [a], []) := by
            simp [readDigits, ha]
          rw [hrd2, hrd1]
        rw [h2, ← sepEp_genSep]
      | cons b rest2 =>
        by_cases hb : isDigit b
        · have h1 : afterS (a :: b :: rest2) =
              match sepEp [a, b] rest2 with
              | some r => some r
              | none => sepEp [a] (b :: rest2) := by
            simp [afterS, ha, hb]
          have hrd2 : readDigits 2 (a :: b :: rest2) = some (natFromDigits [a, b], rest2) := by
            simp [readDigits, ha, hb, List.take_succ_cons, List.drop_succ_cons]
          have hrd1 : readDigits 1 (a :: b :: rest2) = some (natFromDigits [a], b :: rest2) := by
            simp [readDigits, ha, List.take_succ_cons, List.drop_succ_cons]
          rw [h1]
          unfold genBody
          rw [hrd2, hrd1]
          have hsg := sepEp_genSep [a, b] rest2
          cases hse : sepEp [a, b] rest2 with
          | none =>
            rw [hse] at hsg
            simp only [Option.map_none'] at hsg
            dsimp only
            rw [← hsg]
            dsimp only
            rw [← sepEp_genSep]
          | some r =>
            rw [hse] at hsg
            simp only [Option.map_some'] at hsg
            dsimp only
            rw [← hsg]
            rfl
        · have h1 : afterS (a :: b :: rest2) = sepEp [a] (b :: rest2) := by
            simp [afterS, ha, hb]
          have hrd2 : readDigits 2 (a :: b :: rest2) = none := by
            simp [readDigits, hb, List.take_succ_cons]
          have hrd1 : readDigits 1 (a :: b :: rest2) = some (natFromDigits [a], b :: rest2) := by
            simp [readDigits, ha, List.take_succ_cons, List.drop_succ_cons]
          rw [h1]
          unfold genBody
          rw [hrd2, hrd1]
          dsimp only
          rw [← sepEp_genSep]
    · have h1 : afterS (a :: rest) = none := by
        simp [afterS, ha]
      have hrd2 : readDigits 2 (a :: rest) = none := by
        cases rest with
        | nil => simp [readDigits]
        | cons b r2 => simp [readDigits, ha, List.take_succ_cons]
      have hrd1 : readDigits 1 (a :: rest) = none := by
        simp [readDigits, ha, List.take_succ_cons]
      rw [h1]
      unfold genBody
      rw [hrd2, hrd1]
      rfl

theorem showAt_genAt (s : List Char) :
    (showAt s).map capsToNums = genAt specTail s := by
  cases s with
  | nil => rfl
  | cons c cs =>
    by_cases hS : c = 'S' ∨ c = 's'
    · have hcond : ((c :: cs).head? = some 'S' ∨ (c :: cs).head? = some 's') := by
        rcases hS with h | h <;> subst h <;> simp
      have h1 : showAt (c :: cs) =
          match afterS cs with
          | some r => some r
          | none => afterS (c :: cs) := by
        have : (decide (c = 'S') || decide (c = 's')) = true := by
          rcases hS with h | h <;> simp [h]
        simp [showAt, this]
      have h2 : genAt specTail (c :: cs) =
          match genBody specTail cs with
          | some r => some r
          | none => genBody specTail (c :: cs) := by
        unfold genAt
        rw [if_pos]
        · rfl
        · rcases hS with h | h <;> simp [h]
      rw [h1, h2]
      have hab := afterS_genBody cs
      cases haf : afterS cs with
      | none =>
        rw [haf] at hab
        simp only [Option.map_none'] at hab
        dsimp only
        rw [← hab]
        dsimp only
        rw [← afterS_genBody]
      | some r =>
        rw [haf] at hab
        simp only [Option.map_some'] at hab
        dsimp only
        rw [← hab]
        rfl
    · have h1 : showAt (c :: cs) = afterS (c :: cs) := by
        have : (decide (c = 'S') || decide (c = 's')) = false := by
          push_neg at hS
          simp [hS.1, hS.2]
        simp [showAt, this]
      have h2 : genAt specTail (c :: cs) = genBody specTail (c :: cs) := by
        unfold genAt
        rw [if_neg]
        push_neg at hS
        simp [hS.1, hS.2]
      rw [h1, h2, ← afterS_genBody]

/-- C4 amended: the tokenizer recognizes season and episode info exactly by
the leftmost match of: an optional S, a one-or-two digit season preferring
the longer reading, a separator x or E case-insensitively, a two-digit
episode, and an optional second two-digit episode introduced by an optional
dash followed by an optional E; only that first match is used. -/
theorem c4_grammar_amended (name : List Char) :
    (findShow name).map capsToNums = specShowSearch name := by
  unfold specShowSearch
  induction name with
  | nil => rfl
  | cons c cs ih =>
    simp only [findShow, genSearch]
    have hsa := showAt_genAt (c :: cs)
    cases hat : showAt (c :: cs) with
    | none =>
      rw [hat] at hsa
      simp only [Option.map_none'] at hsa
      rw [← hsa]
      exact ih
    | some r =>
      rw [hat] at hsa
      simp only [Option.map_some'] at hsa
      dsimp only
      rw [← hsa]
      rfl
